import Mathlib

/-!
Verification of the vue-model repository core (`src/unnamed/part_000`, the ES6
`Model` class, and `src/dist/vueModello.js`, the bundled build that also holds
`makeActionContext`).

The JavaScript source is shallow-embedded:
* JS plain values become `JSVal`; JS objects are ordered association lists
  (`AList`) with JS assignment semantics (`aset`: overwrite in place, append
  when new) and own-property lookup (`aget`).
* JS functions that the claims must observe (actions, mutations, state
  factories) are Lean functions; an action result is either a plain value or a
  thenable that settles after an abstract number of ticks (`ARes`).
* Fallible paths (property access on `undefined`, the unbound identifier in
  `fireBeforeDispatch`) return `Except JSErr`.
* The dispatch engine additionally emits an event trace (`Ev`) so that
  "records without executing", "exactly one snapshot", and "this action was
  invoked with this context" are observable propositions.
-/

namespace VueModello

/-- JS runtime errors that the embedded code can raise. -/
inductive JSErr where
  | typeError
  | referenceError
deriving DecidableEq

/-- JS plain values: `undefined`, `null`, booleans, numbers (the schemas in
this repository only use integral defaults), strings, arrays and objects. -/
inductive JSVal where
  | undef
  | null
  | bool (b : Bool)
  | num (n : Int)
  | str (s : String)
  | arr (elems : List JSVal)
  | obj (fields : List (String × JSVal))

/-- The check behind `defaults !== undefined` in the source. -/
def isUndef : JSVal → Bool
  | JSVal.undef => true
  | _ => false

/-- A JS object viewed as an ordered association list of own properties. -/
abbrev AList (α : Type) := List (String × α)

/-- Own-property read `o[k]`: first entry with the key (JS objects have
unique keys, so the first entry is the entry). -/
def aget : AList α → String → Option α
  | [], _ => none
  | p :: rest, k => if p.1 = k then some p.2 else aget rest k

/-- Own-property presence: `Object.prototype.hasOwnProperty` / the `in` operator. -/
def hasKey (l : AList α) (k : String) : Bool :=
  l.any (fun p => p.1 = k)

/-- JS property assignment `o[k] = v`: an existing key keeps its position and
gets the new value, a new key is appended (insertion order semantics). -/
def aset (l : AList α) (k : String) (v : α) : AList α :=
  if hasKey l k then l.map (fun p => if p.1 = k then (k, v) else p)
  else l ++ [(k, v)]

/-- A sequence of JS assignments `base[k] = v` for every entry of `upd`, in
order.  This is the semantics of object spread `{...base, ...upd}` and of the
assignment loops in the source (defaults table fill, mixin merge). -/
def assignAll (base upd : AList α) : AList α :=
  upd.foldl (fun acc p => aset acc p.1 p.2) base

/-- JS `Set.prototype.add`: insertion-ordered, ignores duplicates. -/
def setAdd [DecidableEq α] (l : List α) (x : α) : List α :=
  if x ∈ l then l else l ++ [x]

/-- Accumulating a list into a JS `Set`, keeping first-occurrence order. -/
def dedupKeep [DecidableEq α] (l : List α) : List α :=
  l.foldl setAdd []

/-! ## Attribute resolver (Model constructor, `src/unnamed/part_000` lines 16-185) -/

/-- The `type` field of a property descriptor: `Array.isArray(Type)` arrays,
the `String`/`Number`/`Boolean` constructors, or anything else. -/
inductive PropType where
  | arrayType
  | stringType
  | numberType
  | booleanType
  | otherType
deriving DecidableEq

/-- A property descriptor.  `defaultValue` is presence-checked in the source
(`propDesc.hasOwnProperty('defaultValue')`), so `some JSVal.undef` (an
explicitly `undefined` default) is distinct from `none` (absent). -/
structure PropDesc where
  type : PropType
  label : String
  defaultValue : Option JSVal

/-- The `binding` field of a schema: a bound model name and the local-to-remote
property map. -/
structure Binding where
  modelName : String
  propMap : AList String

/-- The interface of a bound model consulted through the registry: its
`getPropRule` and `getPropDefaults` answers (the resolver calls only these). -/
structure BoundModel where
  getRuleOf : String → Option (AList JSVal)
  getDefaultsOf : String → JSVal

/-- The registry `ModelMan`, with `get(modelName)` returning the model or
`undefined`. -/
def Registry := String → Option BoundModel

/-- The resolver-relevant part of a model schema. -/
structure RModel where
  properties : AList PropDesc
  rules : Option (AList (AList JSVal))
  binding : Option Binding

/-- Source: `let bindingMap = binding ? binding.propMap : ` empty map. -/
def bindingMapOf (M : RModel) : AList String :=
  match M.binding with
  | some b => b.propMap
  | none => []

/-- Source: `getBindingModel = () => binding ? ModelMan.get(binding.modelName) : null`. -/
def getBindingModel (reg : Registry) (M : RModel) : Option BoundModel :=
  match M.binding with
  | some b => reg b.modelName
  | none => none

/-- Source: `let rule = rules ? rules[prop] : undefined`. -/
def localRuleOf (M : RModel) (prop : String) : Option (AList JSVal) :=
  match M.rules with
  | none => none
  | some rs => aget rs prop

/-- Source `getPropRule` (part_000 lines 108-123): local rule, shallow-merged under a
remote rule when the property is bound, the bound model is registered and
yields a truthy rule.  `{...bindingRule, ...rule}` spreads nothing for an
`undefined` local rule. -/
def getPropRule (reg : Registry) (M : RModel) (prop : String) : Option (AList JSVal) :=
  let rule := localRuleOf M prop
  match aget (bindingMapOf M) prop with
  | none => rule
  | some mapProp =>
    if mapProp = "" then rule
    else
      match getBindingModel reg M with
      | none => rule
      | some bindingModel =>
        match bindingModel.getRuleOf mapProp with
        | none => rule
        | some bindingRule =>
          some (assignAll bindingRule (match rule with | some r => r | none => []))

/-- The auto-computed default of the constructor loop (part_000 lines 85-103):
`Array.isArray(Type)` gives `[]`, then the `switch` on `String`/`Number`/
`Boolean`; any other type leaves `value` `undefined` and sets nothing. -/
def autoDefault : PropType → Option JSVal
  | PropType.arrayType => some (JSVal.arr [])
  | PropType.stringType => some (JSVal.str "")
  | PropType.numberType => some (JSVal.num 0)
  | PropType.booleanType => some (JSVal.bool true)
  | PropType.otherType => none

/-- One step of the `for (let prop in properties)` defaults-collection loop
(part_000 lines 76-105): an explicit `defaultValue` is copied, otherwise a
property not covered by `bindingMap.hasOwnProperty` gets its auto default. -/
def defaultStateStep (bmap : AList String) (ds : AList JSVal)
    (p : String × PropDesc) : AList JSVal :=
  match p.2.defaultValue with
  | some v => aset ds p.1 v
  | none =>
    if hasKey bmap p.1 then ds
    else
      match autoDefault p.2.type with
      | some v => aset ds p.1 v
      | none => ds

/-- The `defaultState` object collected at construction. -/
def defaultStateOf (M : RModel) : AList JSVal :=
  M.properties.foldl (defaultStateStep (bindingMapOf M)) []

/-- Source `getPropDefaults` (part_000 lines 157-177).  Priority: explicit
`defaultValue` (presence-checked), then the bound model's resolved default when
it is not `undefined`, then `prop in defaultState`, else `undefined`.  A lookup
of an undeclared property dereferences `undefined` and throws. -/
def getPropDefaults (reg : Registry) (M : RModel) (prop : String) :
    Except JSErr JSVal :=
  match aget M.properties prop with
  | none => Except.error JSErr.typeError
  | some pd =>
    match pd.defaultValue with
    | some v => Except.ok v
    | none =>
      let boundResult : Option JSVal :=
        match aget (bindingMapOf M) prop with
        | none => none
        | some mapProp =>
          if mapProp = "" then none
          else
            match getBindingModel reg M with
            | none => none
            | some bm =>
              let d := bm.getDefaultsOf mapProp
              if isUndef d then none else some d
      match boundResult with
      | some v => Except.ok v
      | none =>
        match aget (defaultStateOf M) prop with
        | some v => Except.ok v
        | none => Except.ok JSVal.undef

/-! ## Namespace composer (part_000 lines 4-14 and 22-70) -/

/-- A value of the schema's top-level `actions`/`mutations` object: either a
bare function (an un-namespaced action/mutation of the model itself) or a
namespace table. -/
inductive DescVal (φ : Type) where
  | fn (f : φ)
  | table (t : AList φ)

/-- The top-level function entries of a desc object, in insertion order. -/
def topFns (desc : AList (DescVal φ)) : AList φ :=
  desc.filterMap (fun p =>
    match p.2 with
    | DescVal.fn f => some (p.1, f)
    | DescVal.table _ => none)

/-- The effect of `delete desc[name]` applied to every top-level function entry. -/
def removeTopFns (desc : AList (DescVal φ)) : AList (DescVal φ) :=
  desc.filter (fun p =>
    match p.2 with
    | DescVal.fn _ => false
    | DescVal.table _ => true)

/-- Source `regDefaultDesc` (part_000 lines 4-14): ensure a namespace table keyed by
the model name exists (`desc[modelName] || (desc[modelName] = {})`), then move
every top-level function entry into it (assignment then `delete`), in
iteration order. -/
def regDefaultDesc (desc : AList (DescVal φ)) (modelName : String) :
    AList (DescVal φ) :=
  let d := if hasKey desc modelName then desc
           else desc ++ [(modelName, DescVal.table [])]
  let base : AList φ :=
    match aget d modelName with
    | some (DescVal.table t) => t
    | _ => []
  let filled := assignAll base (topFns d)
  (removeTopFns d).map (fun p =>
    if p.1 = modelName then (p.1, DescVal.table filled) else p)

/-- The wrapping of the schema's own state factory (part_000 lines 22-29):
`modelDesc.state = () => ({ [modelDesc.modelName]: _state() })`. -/
def wrapModelState (modelName : String) (stateF : Unit → JSVal) :
    Unit → AList JSVal :=
  fun u => [(modelName, stateF u)]

/-- A mixin module: `{state, actions, mutations}`. -/
structure MixinDef (φ : Type) where
  stateF : Unit → JSVal
  actions : AList φ
  mutations : AList φ

/-- The mixin merge loop for actions (part_000 lines 47-54):
`modelDesc.actions[regState] = module.actions` for every mixin entry in
declaration order. -/
def mergeMixinActions (acts : AList (AList φ)) (mixins : AList (MixinDef φ)) :
    AList (AList φ) :=
  assignAll acts (mixins.map (fun p => (p.1, p.2.actions)))

/-- The mixin merge loop for mutations (part_000 lines 47-54):
`modelDesc.mutations[regState] = module.mutations`. -/
def mergeMixinMutations (muts : AList (AList φ)) (mixins : AList (MixinDef φ)) :
    AList (AList φ) :=
  assignAll muts (mixins.map (fun p => (p.1, p.2.mutations)))

/-- The `actionStateMap` construction (part_000 lines 56-61): for every namespace
in insertion order, for every action name in its table, assign
`actionStateMap[name] = state`; a later namespace overwrites an earlier one on
a name collision. -/
def buildActionStateMap (A : AList (AList φ)) : AList String :=
  A.foldl (fun msm p => p.2.foldl (fun msm2 q => aset msm2 q.1 p.1) msm) []

/-! ## Action context (`makeActionContext`, dist lines 7-21) -/

/-- A record of one mutation invocation: the mutation name and the full
argument list it was applied to (state prepended). -/
structure MutInvocation where
  name : String
  args : List JSVal

/-- A mutation function, applied to its JS argument array `(state, ...args)`. -/
def Mutation := List JSVal → JSVal

/-- The context object built by `makeActionContext(mutations, state, service)`:
its `state` field and the behaviour of its `dispatch` closure, which reports
the mutation invocations it performs. -/
structure JsActionContext where
  state : JSVal
  dispatchFn : String → List JSVal → List MutInvocation × JSVal

/-- Source `makeActionContext` (dist lines 7-21).  The `dispatch` closure checks
`mutations.hasOwnProperty(mutationName)`; when present it unshifts `state` onto
the arguments and applies the mutation, returning its result; when absent it
invokes nothing and falls through, returning `undefined`.  The `service` field
is an opaque handle the claims do not observe. -/
def makeActionContext (mutations : AList Mutation) (state : JSVal) :
    JsActionContext :=
  JsActionContext.mk state (fun mutationName args =>
    match aget mutations mutationName with
    | some f => ([MutInvocation.mk mutationName (state :: args)], f (state :: args))
    | none => ([], JSVal.undef))

/-! ## Dispatch engine (part_000 lines 194-282) -/

/-- The result of an action function: a non-thenable value, or a thenable that
settles after `delay` abstract ticks with value `v` (`result && result.then`
distinguishes the two). -/
inductive ARes where
  | value (v : JSVal)
  | thenable (delay : Nat) (v : JSVal)

/-- The execution context handed to an action by the engine: the raw mutation
table captured by `makeActionContext` (possibly `undefined` when the namespace
is unknown) and the namespace slice `state[stateKey]`.  The re-entrant
dispatch/service handle is not observed by the claims and is omitted. -/
structure EmbCtx where
  mutations : Option (AList Mutation)
  state : JSVal

/-- An action function of the engine. -/
def ActionFn := EmbCtx → List JSVal → ARes

/-- The dispatch-engine part of a constructed model: composed per-namespace
action and mutation tables, the composed state factory (namespace to slice),
and the `beforeDispatch` handler list (handlers carried as opaque ids, since
the source never manages to call them). -/
structure DModel where
  actions : AList (AList ActionFn)
  mutations : AList (AList Mutation)
  stateFactory : Unit → AList JSVal
  handlers : List Nat

/-- The `actionStateMap` of a constructed model. -/
def modelActionStateMap (m : DModel) : AList String :=
  buildActionStateMap m.actions

/-- JS property-key coercion: an `undefined` key reads property `"undefined"`. -/
def jsKey : Option String → String
  | none => "undefined"
  | some s => s

/-- The argument shapes `getState` is called with. -/
inductive GetStateArg where
  | noArg
  | strArg (s : String)
  | listArg (l : List String)

/-- Source `getState` (part_000 lines 270-282): call the composed state factory; a
falsy argument returns the whole state, a string is wrapped into a singleton
list, and each requested namespace is copied into a fresh result object
(`result[s] = allState[s]`, an absent namespace yielding `undefined`). -/
def getState (m : DModel) (states : GetStateArg) : AList JSVal :=
  let allState := m.stateFactory ()
  match states with
  | GetStateArg.noArg => allState
  | GetStateArg.strArg s =>
    if s = "" then allState
    else [(s, (aget allState s).getD JSVal.undef)]
  | GetStateArg.listArg l =>
    l.foldl (fun r s => aset r s ((aget allState s).getD JSVal.undef)) []

/-- Observable events of an engine run. -/
inductive Ev where
  | handlerInvoked (id : Nat)
  | getStateCalled (arg : GetStateArg)
  | actionInvoked (nsKey : String) (action : String) (ctxState : JSVal)
      (bizArgs : List JSVal)
  | recorded (stateKey : Option String) (action : String) (args : List JSVal)

def isGetStateEv : Ev → Bool
  | Ev.getStateCalled _ => true
  | _ => false

def isHandlerEv : Ev → Bool
  | Ev.handlerInvoked _ => true
  | _ => false

def isActionEv : Ev → Bool
  | Ev.actionInvoked _ _ _ _ => true
  | _ => false

/-- Source `fireBeforeDispatch` (part_000 lines 199-204).  The source iterates
`beforeDispatchHanlers.forEach(function () { handler.apply(null, args) })`:
the callback's `handler` is an unbound identifier, so with a non-empty handler
list the first iteration throws a `ReferenceError`, and no registered handler
is ever invoked (no `handlerInvoked` event is emitted on any path). -/
def fireBeforeDispatch (handlers : List Nat) (stateKey : Option String)
    (action : String) (args : List JSVal) : List Ev × Except JSErr Unit :=
  match handlers, stateKey, action, args with
  | [], _, _, _ => ([], Except.ok ())
  | _ :: _, _, _, _ => ([], Except.error JSErr.referenceError)

/-- Source `applyAction` (part_000 lines 206-212): fire the (broken) before-dispatch
broadcast, look up `modelDesc.actions[state][action]` (property access on an
`undefined` table, or calling an `undefined` entry, throws a `TypeError`),
invoke the action on the context-prepended arguments, and return the result
only when it is thenable (`if (result && result.then) return result`). -/
def applyAction (m : DModel) (stateKey : Option String) (action : String)
    (ctx : EmbCtx) (bizArgs : List JSVal) :
    List Ev × Except JSErr (Option (Nat × JSVal)) :=
  match fireBeforeDispatch m.handlers stateKey action bizArgs with
  | (hEvs, Except.error e) => (hEvs, Except.error e)
  | (hEvs, Except.ok _) =>
    match aget m.actions (jsKey stateKey) with
    | none => (hEvs, Except.error JSErr.typeError)
    | some tbl =>
      match aget tbl action with
      | none => (hEvs, Except.error JSErr.typeError)
      | some f =>
        (hEvs ++ [Ev.actionInvoked (jsKey stateKey) action ctx.state bizArgs],
         Except.ok (match f ctx bizArgs with
           | ARes.value _ => none
           | ARes.thenable d v => some (d, v)))

/-- The context `dispatch` builds for a resolved namespace `ns`:
`makeActionContext(this.getStateMutations(stateKey), state[stateKey], ...)`. -/
def dispatchContext (m : DModel) (ns : String) : EmbCtx :=
  EmbCtx.mk (aget m.mutations ns)
    ((aget (getState m (GetStateArg.strArg ns)) ns).getD JSVal.undef)

/-- Source `dispatch` (part_000 lines 214-234): resolve the namespace through
`actionStateMap`, snapshot `getState(stateKey)`, build the context, apply the
action, and when the result is thenable return `result.then(() => state)` — a
deferred settling with the action and resolving to the snapshot; a synchronous
action yields `undefined` (`Except.ok none`). -/
def dispatch (m : DModel) (action : String) (bizArgs : List JSVal) :
    List Ev × Except JSErr (Option (Nat × AList JSVal)) :=
  let stateKey := aget (modelActionStateMap m) action
  let stArg : GetStateArg :=
    match stateKey with
    | none => GetStateArg.noArg
    | some s => GetStateArg.strArg s
  let st := getState m stArg
  let k := jsKey stateKey
  let ctx : EmbCtx := EmbCtx.mk (aget m.mutations k) ((aget st k).getD JSVal.undef)
  let (evs, r) := applyAction m stateKey action ctx bizArgs
  (Ev.getStateCalled stArg :: evs,
   match r with
   | Except.error e => Except.error e
   | Except.ok none => Except.ok none
   | Except.ok (some (d, _)) => Except.ok (some (d, st)))

/-- One `{stateKey, action, args}` tuple pushed by the recording dispatch of
`dispatchAll`. -/
structure Caller where
  stateKey : Option String
  action : String
  args : List JSVal

/-- The recording phase of `dispatchAll` (part_000 lines 239-250): `fn` is
invoked synchronously with a local `dispatch` that only pushes
`{stateKey, action, args}` — the collector is therefore modelled as the list
of `(actionName, args)` calls it makes. -/
def recordCallers (m : DModel) (collector : List (String × List JSVal)) :
    List Caller :=
  collector.map (fun p =>
    Caller.mk (aget (modelActionStateMap m) p.1) p.1 p.2)

/-- The `subStates` set accumulated by the recording dispatch: distinct
namespaces in first-touch order. -/
def recordSubStates (m : DModel) (collector : List (String × List JSVal)) :
    List (Option String) :=
  dedupKeep ((recordCallers m collector).map Caller.stateKey)

/-- The namespace list `[...subStates]` as `getState` accesses it. -/
def batchNamespaces (m : DModel) (collector : List (String × List JSVal)) :
    List String :=
  (recordSubStates m collector).map jsKey

/-- The one shared snapshot `let state = this.getState([...subStates])`. -/
def batchSnapshot (m : DModel) (collector : List (String × List JSVal)) :
    AList JSVal :=
  getState m (GetStateArg.listArg (batchNamespaces m collector))

/-- The context built for one recorded caller inside `Promise.all(...map(...))`:
`makeActionContext(this.getStateMutations(stateKey), state[stateKey], ...)`
over the shared snapshot. -/
def callerCtx (m : DModel) (snap : AList JSVal) (c : Caller) : EmbCtx :=
  EmbCtx.mk (aget m.mutations (jsKey c.stateKey))
    ((aget snap (jsKey c.stateKey)).getD JSVal.undef)

/-- Executing one recorded caller against the shared snapshot. -/
def runCaller (m : DModel) (snap : AList JSVal) (c : Caller) :
    List Ev × Except JSErr (Option (Nat × JSVal)) :=
  applyAction m c.stateKey c.action (callerCtx m snap c) c.args

/-- Executing all recorded callers in order; a synchronous throw inside the
`callers.map` aborts the batch (`Promise.all` is never reached). -/
def runCallers (m : DModel) (snap : AList JSVal) :
    List Caller → List Ev × Except JSErr (List (Option (Nat × JSVal)))
  | [] => ([], Except.ok [])
  | c :: rest =>
    match runCaller m snap c with
    | (ev, Except.error e) => (ev, Except.error e)
    | (ev, Except.ok res) =>
      match runCallers m snap rest with
      | (evs, Except.error e) => (ev ++ evs, Except.error e)
      | (evs, Except.ok l) => (ev ++ evs, Except.ok (res :: l))

/-- The settled form of one recorded caller's `applyAction` result on the
success path: the thenable `(delay, value)` pair, or `none` for a synchronous
action (whose `applyAction` returns `undefined`). -/
def callerResultOpt (m : DModel) (snap : AList JSVal) (c : Caller) :
    Option (Nat × JSVal) :=
  match aget m.actions (jsKey c.stateKey) with
  | none => none
  | some tbl =>
    match aget tbl c.action with
    | none => none
    | some f =>
      match f (callerCtx m snap c) c.args with
      | ARes.value _ => none
      | ARes.thenable d v => some (d, v)

/-- How long one `applyAction` result keeps the batch pending: a thenable
until it settles, a synchronous `undefined` not at all. -/
def settleDelay : Option (Nat × JSVal) → Nat
  | none => 0
  | some (d, _) => d

/-- The `Promise.all` join: settled once every member result has settled. -/
def maxDelay (l : List (Option (Nat × JSVal))) : Nat :=
  l.foldl (fun acc r => Nat.max acc (settleDelay r)) 0

/-- Source `dispatchAll` (part_000 lines 236-264): record synchronously, take the one
shared snapshot over the touched namespaces, execute every recorded caller
against it, and return `Promise.all(results).then(() => state)`. -/
def dispatchAll (m : DModel) (collector : List (String × List JSVal)) :
    List Ev × Except JSErr (Nat × AList JSVal) :=
  let callers := recordCallers m collector
  let recEvs := callers.map (fun c => Ev.recorded c.stateKey c.action c.args)
  let nsList := batchNamespaces m collector
  let snap := getState m (GetStateArg.listArg nsList)
  match runCallers m snap callers with
  | (runEvs, Except.error e) =>
    (recEvs ++ Ev.getStateCalled (GetStateArg.listArg nsList) :: runEvs,
     Except.error e)
  | (runEvs, Except.ok results) =>
    (recEvs ++ Ev.getStateCalled (GetStateArg.listArg nsList) :: runEvs,
     Except.ok (maxDelay results, snap))

/-- The event recording the invocation of one recorded caller with its context
scoped to the shared snapshot. -/
def invokedEv (m : DModel) (collector : List (String × List JSVal)) (c : Caller) : Ev :=
  Ev.actionInvoked (jsKey c.stateKey) c.action
    (callerCtx m (batchSnapshot m collector) c).state c.args

/-- The batch-dispatch protocol of one `dispatchAll` run: the trace is the
recording events (no execution during collection), then exactly one `getState`
call over the union of the touched namespaces, then one invocation per
recorded caller with its context state being its namespace's slice of the one
shared snapshot (so same-namespace callers receive the same sub-state); the
result is a deferred resolving to the shared snapshot that stays pending at
least as long as every action result. -/
def batchProtocolHolds (m : DModel) (collector : List (String × List JSVal)) : Prop :=
  ∃ D : Nat,
    (dispatchAll m collector).1 =
      ((recordCallers m collector).map (fun c => Ev.recorded c.stateKey c.action c.args)) ++
      Ev.getStateCalled (GetStateArg.listArg (batchNamespaces m collector)) ::
      ((recordCallers m collector).map (invokedEv m collector)) ∧
    ((dispatchAll m collector).1.filter isGetStateEv).length = 1 ∧
    (∀ s, s ∈ batchNamespaces m collector ↔
          ∃ p ∈ collector, aget (modelActionStateMap m) p.1 = some s) ∧
    (∀ c1 ∈ recordCallers m collector, ∀ c2 ∈ recordCallers m collector,
        c1.stateKey = c2.stateKey →
        (callerCtx m (batchSnapshot m collector) c1).state =
        (callerCtx m (batchSnapshot m collector) c2).state) ∧
    (dispatchAll m collector).2 = Except.ok (D, batchSnapshot m collector) ∧
    (∀ c ∈ recordCallers m collector, ∀ d v,
        (runCaller m (batchSnapshot m collector) c).2 = Except.ok (some (d, v)) →
        d ≤ D)

/-! ## Concrete instances used by the witnesses -/

/-- A bound model registered under `"B"`: rule `{a:1, b:2}` for property
`"r"`, resolved default `42` for every property. -/
def wBound : BoundModel :=
  BoundModel.mk
    (fun p => if p = "r" then some [("a", JSVal.num 1), ("b", JSVal.num 2)] else none)
    (fun _ => JSVal.num 42)

/-- A registry holding only the bound model `"B"`. -/
def wReg : Registry := fun n => if n = "B" then some wBound else none

/-- A model with an explicitly `undefined` default on a bound property. -/
def w5M : RModel :=
  RModel.mk [("p", PropDesc.mk PropType.otherType "" (some JSVal.undef))]
    none (some (Binding.mk "B" [("p", "r")]))

/-- An unbound schema with number/array/boolean/other typed properties. -/
def w6M : RModel :=
  RModel.mk
    [("count", PropDesc.mk PropType.numberType "" none),
     ("items", PropDesc.mk PropType.arrayType "" none),
     ("flag", PropDesc.mk PropType.booleanType "" none),
     ("misc", PropDesc.mk PropType.otherType "" none)]
    none none

/-- A schema whose only property is bound to a model that is not registered. -/
def w6bM : RModel :=
  RModel.mk [("bound", PropDesc.mk PropType.numberType "" none)]
    none (some (Binding.mk "Missing" [("bound", "r")]))

/-- A schema with local rule `{b:3}` on a property bound to `"B"."r"`. -/
def w7M : RModel :=
  RModel.mk [("p", PropDesc.mk PropType.otherType "" none)]
    (some [("p", [("b", JSVal.num 3)])])
    (some (Binding.mk "B" [("p", "r")]))

/-- An action that settles after 3 ticks. -/
def w1Act1 : ActionFn := fun _ _ => ARes.thenable 3 JSVal.null

/-- A synchronous action. -/
def w1Act2 : ActionFn := fun _ _ => ARes.value JSVal.undef

/-- A one-namespace engine model with a thenable and a synchronous action and
no registered before-dispatch handlers. -/
def w1Model : DModel :=
  DModel.mk [("m", [("a1", w1Act1), ("a2", w1Act2)])] [("m", [])]
    (fun _ => [("m", JSVal.num 5)]) []

/-- A synchronous action used by the before-dispatch defect run. -/
def c4Act : ActionFn := fun _ _ => ARes.value JSVal.undef

/-- An engine model with one registered before-dispatch handler (id `0`). -/
def c4Model : DModel :=
  DModel.mk [("m", [("a", c4Act)])] [("m", [])]
    (fun _ => [("m", JSVal.num 1)]) [0]

/-- A mutation table with one mutation `inc` returning `7`. -/
def wMuts : AList Mutation := [("inc", fun _ => JSVal.num 7)]

/-- Namespace tables for the mixin-composition witness: the schema's own
namespace declares action `"a"`, the mixin's namespace redeclares `"a"`. -/
def w9Base : AList (AList Nat) := [("own", [("a", 1)])]

def w9BaseMuts : AList (AList Nat) := [("own", [("ma", 1)])]

def w9Mixins : AList (MixinDef Nat) :=
  [("mx", MixinDef.mk (fun _ => JSVal.null) [("a", 2)] [("ma", 3)])]

/-- A desc object with two top-level function entries around an existing
namespace table keyed by the model name `"M"`. -/
def w10Desc : AList (DescVal Nat) :=
  [("f1", DescVal.fn 1), ("M", DescVal.table [("old", 5)]), ("f2", DescVal.fn 2)]

/-! ## Association-list lemmas -/

theorem hasKey_cons (p : String × α) (l : AList α) (k : String) :
    hasKey (p :: l) k = (decide (p.1 = k) || hasKey l k) := rfl

theorem aget_eq_none_of_hasKey_false {l : AList α} {k : String}
    (h : hasKey l k = false) : aget l k = none := by
  induction l with
  | nil => rfl
  | cons p rest ih =>
    rw [hasKey_cons, Bool.or_eq_false_iff] at h
    have h1 : ¬ (p.1 = k) := by simpa using h.1
    simp [aget, h1, ih h.2]

theorem hasKey_eq_false_of_not_mem_keys {l : AList α} {k : String}
    (h : k ∉ l.map Prod.fst) : hasKey l k = false := by
  induction l with
  | nil => rfl
  | cons p rest ih =>
    rw [List.map_cons, List.mem_cons] at h
    push_neg at h
    rw [hasKey_cons, Bool.or_eq_false_iff]
    exact ⟨decide_eq_false (Ne.symm h.1), ih h.2⟩

theorem hasKey_eq_true_of_aget_some {l : AList α} {k : String} {v : α}
    (h : aget l k = some v) : hasKey l k = true := by
  induction l with
  | nil => simp [aget] at h
  | cons p rest ih =>
    rw [hasKey_cons]
    by_cases hp : p.1 = k
    · simp [hp]
    · simp only [aget, if_neg hp] at h
      simp [ih h]

theorem mem_of_aget_some {l : AList α} {k : String} {v : α}
    (h : aget l k = some v) : (k, v) ∈ l := by
  induction l with
  | nil => simp [aget] at h
  | cons p rest ih =>
    by_cases hp : p.1 = k
    · simp only [aget, if_pos hp] at h
      have hv : v = p.2 := (Option.some.inj h).symm
      have he : (k, v) = p := by rw [← hp, hv, Prod.mk.eta]
      rw [he]
      exact List.mem_cons_self p rest
    · simp only [aget, if_neg hp] at h
      exact List.mem_cons_of_mem p (ih h)

theorem aget_of_mem_nodup {l : AList α} {k : String} {v : α}
    (hnd : (l.map Prod.fst).Nodup) (h : (k, v) ∈ l) : aget l k = some v := by
  induction l with
  | nil => simp at h
  | cons p rest ih =>
    rw [List.map_cons, List.nodup_cons] at hnd
    rcases List.mem_cons.mp h with h1 | h1
    · rw [← h1]
      simp [aget]
    · have hk : p.1 ≠ k := by
        intro he
        exact hnd.1 (by rw [he]; exact List.mem_map_of_mem Prod.fst h1)
      simp [aget, hk, ih hnd.2 h1]

theorem aget_append_left {l1 l2 : AList α} {k : String} {v : α}
    (h : aget l1 k = some v) : aget (l1 ++ l2) k = some v := by
  induction l1 with
  | nil => simp [aget] at h
  | cons p rest ih =>
    by_cases hp : p.1 = k
    · simp only [aget, if_pos hp] at h
      simp [aget, hp, h]
    · simp only [aget, if_neg hp] at h
      simp [aget, hp, ih h]

theorem aget_append_right {l1 l2 : AList α} {k : String}
    (h : aget l1 k = none) : aget (l1 ++ l2) k = aget l2 k := by
  induction l1 with
  | nil => rfl
  | cons p rest ih =>
    by_cases hp : p.1 = k
    · simp [aget, hp] at h
    · simp only [aget, if_neg hp] at h
      simp [aget, hp, ih h]

theorem aget_map_overwrite {l : AList α} {k : String} (v : α)
    (h : hasKey l k = true) :
    aget (l.map (fun p => if p.1 = k then (k, v) else p)) k = some v := by
  induction l with
  | nil => simp [hasKey] at h
  | cons p rest ih =>
    by_cases hp : p.1 = k
    · simp [aget, hp]
    · rw [hasKey_cons] at h
      have h2 : hasKey rest k = true := by simpa [hp] using h
      simp [aget, hp, ih h2]

theorem aget_map_overwrite_ne {l : AList α} {k k2 : String} (v : α)
    (h : k2 ≠ k) :
    aget (l.map (fun p => if p.1 = k then (k, v) else p)) k2 = aget l k2 := by
  induction l with
  | nil => rfl
  | cons p rest ih =>
    by_cases hp : p.1 = k
    · have hk : ¬ (k = k2) := Ne.symm h
      simp [aget, hp, hk, ih]
    · simp [aget, hp, ih]

theorem aget_aset_self (l : AList α) (k : String) (v : α) :
    aget (aset l k v) k = some v := by
  unfold aset
  by_cases h : hasKey l k = true
  · rw [if_pos h]
    exact aget_map_overwrite v h
  · rw [if_neg h]
    rw [aget_append_right (aget_eq_none_of_hasKey_false (by simpa using h))]
    simp [aget]

theorem aget_aset_ne {l : AList α} {k k2 : String} (v : α) (h : k2 ≠ k) :
    aget (aset l k v) k2 = aget l k2 := by
  unfold aset
  by_cases hk : hasKey l k = true
  · rw [if_pos hk]
    exact aget_map_overwrite_ne v h
  · rw [if_neg hk]
    cases hv : aget l k2 with
    | some v2 => exact aget_append_left hv
    | none =>
      rw [aget_append_right hv]
      simp [aget, if_neg (Ne.symm h)]

theorem assignAll_cons (base : AList α) (p : String × α) (rest : AList α) :
    assignAll base (p :: rest) = assignAll (aset base p.1 p.2) rest := rfl

theorem aget_assignAll_notKey {base upd : AList α} {k : String}
    (h : hasKey upd k = false) : aget (assignAll base upd) k = aget base k := by
  induction upd generalizing base with
  | nil => rfl
  | cons p rest ih =>
    rw [hasKey_cons, Bool.or_eq_false_iff] at h
    have h1 : ¬ (p.1 = k) := by simpa using h.1
    rw [assignAll_cons, ih h.2]
    exact aget_aset_ne p.2 (Ne.symm h1)

theorem aget_assignAll_mem {base upd : AList α} {k : String} {v : α}
    (hnd : (upd.map Prod.fst).Nodup) (h : (k, v) ∈ upd) :
    aget (assignAll base upd) k = some v := by
  induction upd generalizing base with
  | nil => simp at h
  | cons p rest ih =>
    rw [List.map_cons, List.nodup_cons] at hnd
    rw [assignAll_cons]
    rcases List.mem_cons.mp h with h1 | h1
    · subst h1
      rw [aget_assignAll_notKey (hasKey_eq_false_of_not_mem_keys (by simpa using hnd.1))]
      exact aget_aset_self base k v
    · exact ih hnd.2 h1

theorem mem_foldl_setAdd [DecidableEq α] (l acc : List α) (x : α) :
    x ∈ l.foldl setAdd acc ↔ x ∈ acc ∨ x ∈ l := by
  induction l generalizing acc with
  | nil => simp
  | cons a rest ih =>
    rw [List.foldl_cons, ih]
    by_cases h : a ∈ acc
    · simp only [setAdd, if_pos h, List.mem_cons]
      constructor
      · rintro (h1 | h1)
        · exact Or.inl h1
        · exact Or.inr (Or.inr h1)
      · rintro (h1 | h1 | h1)
        · exact Or.inl h1
        · exact Or.inl (h1 ▸ h)
        · exact Or.inr h1
    · simp only [setAdd, if_neg h, List.mem_append, List.mem_cons,
        List.mem_singleton]
      tauto

theorem mem_dedupKeep [DecidableEq α] {l : List α} {x : α} :
    x ∈ dedupKeep l ↔ x ∈ l := by
  unfold dedupKeep
  rw [mem_foldl_setAdd]
  simp

/-! ## Attribute-resolver lemmas and claims -/

theorem aget_defaultStateStep_ne (bmap : AList String) (acc : AList JSVal)
    (p : String × PropDesc) (prop : String) (h : p.1 ≠ prop) :
    aget (defaultStateStep bmap acc p) prop = aget acc prop := by
  unfold defaultStateStep
  rcases hv : p.2.defaultValue with _ | v
  · simp only []
    by_cases hb : hasKey bmap p.1 = true
    · rw [if_pos hb]
    · rw [if_neg hb]
      rcases ha : autoDefault p.2.type with _ | v2
      · simp only []
      · simp only []
        exact aget_aset_ne v2 (Ne.symm h)
  · simp only []
    exact aget_aset_ne v (Ne.symm h)

theorem aget_defaultStateFold_not_mem (bmap : AList String)
    (props : AList PropDesc) (acc : AList JSVal) (prop : String)
    (h : prop ∉ props.map Prod.fst) :
    aget (props.foldl (defaultStateStep bmap) acc) prop = aget acc prop := by
  induction props generalizing acc with
  | nil => rfl
  | cons p rest ih =>
    rw [List.map_cons, List.mem_cons] at h
    push_neg at h
    rw [List.foldl_cons, ih _ h.2]
    exact aget_defaultStateStep_ne bmap acc p prop (Ne.symm h.1)

theorem aget_defaultStateFold_mem (bmap : AList String)
    (props : AList PropDesc) (acc : AList JSVal) (prop : String)
    (pd : PropDesc)
    (hnd : (props.map Prod.fst).Nodup) (h : (prop, pd) ∈ props) :
    aget (props.foldl (defaultStateStep bmap) acc) prop =
      (match pd.defaultValue with
       | some v => some v
       | none =>
         if hasKey bmap prop = true then aget acc prop
         else
           match autoDefault pd.type with
           | some v => some v
           | none => aget acc prop) := by
  induction props generalizing acc with
  | nil => simp at h
  | cons p rest ih =>
    rw [List.map_cons, List.nodup_cons] at hnd
    rw [List.foldl_cons]
    rcases List.mem_cons.mp h with h1 | h1
    · subst h1
      rw [aget_defaultStateFold_not_mem _ _ _ _ (by simpa using hnd.1)]
      unfold defaultStateStep
      rcases hv : pd.defaultValue with _ | v
      · simp only []
        by_cases hb : hasKey bmap prop = true
        · rw [if_pos hb, if_pos hb]
        · rw [if_neg hb, if_neg hb]
          rcases ha : autoDefault pd.type with _ | v2
          · simp only []
          · simp only []
            exact aget_aset_self acc prop v2
      · simp only []
        exact aget_aset_self acc prop v
    · have hp1 : p.1 ≠ prop := by
        intro he
        exact hnd.1 (by rw [he]; exact List.mem_map_of_mem Prod.fst h1)
      rw [ih (defaultStateStep bmap acc p) hnd.2 h1,
        aget_defaultStateStep_ne bmap acc p prop hp1]

theorem aget_defaultStateOf (M : RModel) (prop : String) (pd : PropDesc)
    (hnd : (M.properties.map Prod.fst).Nodup)
    (h : aget M.properties prop = some pd) :
    aget (defaultStateOf M) prop =
      (match pd.defaultValue with
       | some v => some v
       | none =>
         if hasKey (bindingMapOf M) prop = true then none
         else
           match autoDefault pd.type with
           | some v => some v
           | none => none) := by
  unfold defaultStateOf
  rw [aget_defaultStateFold_mem _ _ _ _ pd hnd (mem_of_aget_some h)]
  rcases pd.defaultValue with _ | v
  · simp only [aget]
  · rfl

/-- C5: for every property whose descriptor has a `defaultValue` key present
(including when its value is `undefined`, `null`, `false`, or `0`),
`getPropDefaults` returns exactly that value, regardless of any binding and
regardless of the type-based fallback. -/
theorem C5_explicit_defaultValue_wins (reg : Registry) (M : RModel)
    (prop : String) (pd : PropDesc) (v : JSVal)
    (hp : aget M.properties prop = some pd)
    (hdv : pd.defaultValue = some v) :
    getPropDefaults reg M prop = Except.ok v := by
  simp [getPropDefaults, hp, hdv]

/-- C5 witness: an explicitly `undefined` default on a bound property of a
registered bound model whose remote default is `42` still yields `undefined`. -/
theorem C5_witness : getPropDefaults wReg w5M "p" = Except.ok JSVal.undef :=
  C5_explicit_defaultValue_wins wReg w5M "p"
    (PropDesc.mk PropType.otherType "" (some JSVal.undef)) JSVal.undef rfl rfl

/-- C6: a property with no explicit `defaultValue` that is not covered by a
binding map entry gets the type-based auto default (array-typed gives `[]`,
`String` gives `""`, `Number` gives `0`, `Boolean` gives `true`, any other
type gives `undefined`); a property covered by a binding map entry never gets
the auto fallback, so when the remote lookup yields nothing the result is
`undefined`. -/
theorem C6_auto_defaults (reg : Registry) (M : RModel) (prop : String)
    (pd : PropDesc)
    (hnd : (M.properties.map Prod.fst).Nodup)
    (hp : aget M.properties prop = some pd)
    (hdv : pd.defaultValue = none) :
    (hasKey (bindingMapOf M) prop = false →
      getPropDefaults reg M prop =
        Except.ok (match pd.type with
          | PropType.arrayType => JSVal.arr []
          | PropType.stringType => JSVal.str ""
          | PropType.numberType => JSVal.num 0
          | PropType.booleanType => JSVal.bool true
          | PropType.otherType => JSVal.undef)) ∧
    (∀ mp, aget (bindingMapOf M) prop = some mp →
      (mp = "" ∨ getBindingModel reg M = none ∨
        (∃ bm, getBindingModel reg M = some bm ∧
          isUndef (bm.getDefaultsOf mp) = true)) →
      getPropDefaults reg M prop = Except.ok JSVal.undef) := by
  constructor
  · intro hb
    have hbn : aget (bindingMapOf M) prop = none :=
      aget_eq_none_of_hasKey_false hb
    have hds := aget_defaultStateOf M prop pd hnd hp
    rw [hdv, hb] at hds
    simp only [Bool.false_eq_true, if_false] at hds
    cases ht : pd.type
    all_goals (
      rw [ht] at hds
      simp only [autoDefault] at hds
      simp [getPropDefaults, hp, hdv, hbn, hds])
  · intro mp hmp hcase
    have hkb : hasKey (bindingMapOf M) prop = true :=
      hasKey_eq_true_of_aget_some hmp
    have hds := aget_defaultStateOf M prop pd hnd hp
    rw [hdv, hkb] at hds
    simp only [if_true] at hds
    rcases hcase with hc | hc | ⟨bm, hbm, hu⟩
    · subst hc
      simp [getPropDefaults, hp, hdv, hmp, hds]
    · simp [getPropDefaults, hp, hdv, hmp, hc, hds]
    · simp [getPropDefaults, hp, hdv, hmp, hbm, hu, hds]

/-- C6 witness: `{count: Number, items: [String], flag: Boolean, misc: Date}`
unbound give `{0, [], true, undefined}`, and a property bound to an
unregistered model resolves to `undefined` with no auto fallback. -/
theorem C6_witness :
    getPropDefaults wReg w6M "count" = Except.ok (JSVal.num 0) ∧
    getPropDefaults wReg w6M "items" = Except.ok (JSVal.arr []) ∧
    getPropDefaults wReg w6M "flag" = Except.ok (JSVal.bool true) ∧
    getPropDefaults wReg w6M "misc" = Except.ok JSVal.undef ∧
    getPropDefaults wReg w6bM "bound" = Except.ok JSVal.undef := by
  refine ⟨?_, ?_, ?_, ?_, ?_⟩
  · exact (C6_auto_defaults wReg w6M "count"
      (PropDesc.mk PropType.numberType "" none) (by decide) rfl rfl).1 rfl
  · exact (C6_auto_defaults wReg w6M "items"
      (PropDesc.mk PropType.arrayType "" none) (by decide) rfl rfl).1 rfl
  · exact (C6_auto_defaults wReg w6M "flag"
      (PropDesc.mk PropType.booleanType "" none) (by decide) rfl rfl).1 rfl
  · exact (C6_auto_defaults wReg w6M "misc"
      (PropDesc.mk PropType.otherType "" none) (by decide) rfl rfl).1 rfl
  · exact (C6_auto_defaults wReg w6bM "bound"
      (PropDesc.mk PropType.numberType "" none) (by decide) rfl rfl).2 "r" rfl
      (Or.inr (Or.inl rfl))

/-- C7: when a property is bound, the bound model is registered and yields a
rule, `getPropRule` is the shallow merge of the remote rule under the local
rule (local keys override, absent local keys fall back to the remote value);
with no local rule the merge is the remote rule itself; with no binding entry,
a falsy binding entry, an unregistered bound model, or no remote rule, the
result is the local rule (hence `undefined` when neither rule exists). -/
theorem C7_getPropRule_merge (reg : Registry) (M : RModel) (prop : String) :
    (∀ mp bm remoteRule,
      aget (bindingMapOf M) prop = some mp → mp ≠ "" →
      getBindingModel reg M = some bm → bm.getRuleOf mp = some remoteRule →
      (getPropRule reg M prop =
        some (assignAll remoteRule
          (match localRuleOf M prop with | some r => r | none => [])) ∧
      (∀ localRule, localRuleOf M prop = some localRule →
        ((localRule.map Prod.fst).Nodup →
          ∀ k v, aget localRule k = some v →
            aget (assignAll remoteRule localRule) k = some v) ∧
        (∀ k, hasKey localRule k = false →
          aget (assignAll remoteRule localRule) k = aget remoteRule k)) ∧
      (localRuleOf M prop = none →
        getPropRule reg M prop = some remoteRule))) ∧
    (aget (bindingMapOf M) prop = none →
      getPropRule reg M prop = localRuleOf M prop) ∧
    (∀ mp, aget (bindingMapOf M) prop = some mp → mp = "" →
      getPropRule reg M prop = localRuleOf M prop) ∧
    (∀ mp, aget (bindingMapOf M) prop = some mp → mp ≠ "" →
      getBindingModel reg M = none →
      getPropRule reg M prop = localRuleOf M prop) ∧
    (∀ mp bm, aget (bindingMapOf M) prop = some mp → mp ≠ "" →
      getBindingModel reg M = some bm → bm.getRuleOf mp = none →
      getPropRule reg M prop = localRuleOf M prop) := by
  refine ⟨?_, ?_, ?_, ?_, ?_⟩
  · intro mp bm remoteRule hmp hne hbm hrr
    refine ⟨?_, ?_, ?_⟩
    · simp [getPropRule, hmp, hne, hbm, hrr]
    · intro localRule hlr
      constructor
      · intro hnd k v hk
        exact aget_assignAll_mem hnd (mem_of_aget_some hk)
      · intro k hk
        exact aget_assignAll_notKey hk
    · intro hlr
      simp [getPropRule, hmp, hne, hbm, hrr, hlr, assignAll]
  · intro hmp
    simp [getPropRule, hmp]
  · intro mp hmp he
    subst he
    simp [getPropRule, hmp]
  · intro mp hmp hne hbm
    simp [getPropRule, hmp, hne, hbm]
  · intro mp bm hmp hne hbm hrr
    simp [getPropRule, hmp, hne, hbm, hrr]

/-- C7 witness: remote rule `{a:1, b:2}` merged under local rule `{b:3}`
yields `{a:1, b:3}`. -/
theorem C7_witness :
    getPropRule wReg w7M "p" = some [("a", JSVal.num 1), ("b", JSVal.num 3)] := by
  have h := (C7_getPropRule_merge wReg w7M "p").1 "r" wBound
    [("a", JSVal.num 1), ("b", JSVal.num 2)] rfl (by decide) rfl rfl
  exact h.1.trans (by rfl)

/-! ## Namespace-composer lemmas and claims -/

theorem aget_isSome_of_hasKey {l : AList α} {k : String}
    (h : hasKey l k = true) : ∃ v, aget l k = some v := by
  induction l with
  | nil => simp [hasKey] at h
  | cons p rest ih =>
    by_cases hp : p.1 = k
    · exact ⟨p.2, by simp [aget, hp]⟩
    · rw [hasKey_cons] at h
      have h2 : hasKey rest k = true := by simpa [hp] using h
      rcases ih h2 with ⟨v, hv⟩
      exact ⟨v, by simp [aget, hp, hv]⟩

theorem hasKey_eq_true_of_mem_keys {l : AList α} {k : String}
    (h : k ∈ l.map Prod.fst) : hasKey l k = true := by
  rcases List.mem_map.mp h with ⟨p, hp, hfst⟩
  rw [hasKey, List.any_eq_true]
  exact ⟨p, hp, by simp [hfst]⟩

theorem not_mem_keys_of_hasKey_false {l : AList α} {k : String}
    (h : hasKey l k = false) : k ∉ l.map Prod.fst := by
  intro hmem
  rw [hasKey_eq_true_of_mem_keys hmem] at h
  simp at h

theorem hasKey_false_of_aget_none {l : AList α} {k : String}
    (h : aget l k = none) : hasKey l k = false := by
  by_cases hk : hasKey l k = true
  · rcases aget_isSome_of_hasKey hk with ⟨v, hv⟩
    rw [hv] at h
    exact absurd h (by simp)
  · simpa using hk

theorem aget_innerFold (tbl : AList φ) (ns : String) (m : AList String)
    (name : String) :
    aget (tbl.foldl (fun m2 q => aset m2 q.1 ns) m) name =
      (if hasKey tbl name = true then some ns else aget m name) := by
  induction tbl generalizing m with
  | nil => simp [hasKey]
  | cons q rest ih =>
    rw [List.foldl_cons, ih, hasKey_cons]
    by_cases hr : hasKey rest name = true
    · rw [if_pos hr, hr, Bool.or_true]
      simp
    · rw [if_neg hr]
      have hrf : hasKey rest name = false := by simpa using hr
      rw [hrf, Bool.or_false]
      by_cases hq : q.1 = name
      · rw [hq]
        simp [aget_aset_self]
      · rw [decide_eq_false hq]
        simp [aget_aset_ne ns (Ne.symm hq)]

theorem aget_buildFold (A : AList (AList φ)) (m0 : AList String)
    (name : String) :
    aget (A.foldl (fun msm p => p.2.foldl (fun msm2 q => aset msm2 q.1 p.1) msm) m0) name =
      (match List.find? (fun p => hasKey p.2 name) A.reverse with
       | some p => some p.1
       | none => aget m0 name) := by
  induction A generalizing m0 with
  | nil => rfl
  | cons p rest ih =>
    rw [List.foldl_cons, ih, List.reverse_cons, List.find?_append]
    cases hf : List.find? (fun p => hasKey p.2 name) rest.reverse with
    | some q => simp
    | none =>
      rw [aget_innerFold]
      by_cases hk : hasKey p.2 name = true
      · simp [List.find?, hk]
      · have hkf : hasKey p.2 name = false := by simpa using hk
        simp [List.find?, hkf]

theorem aget_buildActionStateMap (A : AList (AList φ)) (name : String) :
    aget (buildActionStateMap A) name =
      Option.map Prod.fst (List.find? (fun p => hasKey p.2 name) A.reverse) := by
  unfold buildActionStateMap
  rw [aget_buildFold]
  cases List.find? (fun p => hasKey p.2 name) A.reverse with
  | some q => rfl
  | none => rfl

/-- C9: at construction each mixin's actions and mutations tables replace any
pre-existing entry at its namespace key; and `actionStateMap` maps an action
name to the last namespace in declaration order that declares it, so an entry
declared later (e.g. a mixin) wins over a same-named action of an earlier
namespace. -/
theorem C9_mixin_composition (acts muts : AList (AList φ))
    (mixins : AList (MixinDef φ))
    (hnd : (mixins.map Prod.fst).Nodup) :
    (∀ q ∈ mixins,
        aget (mergeMixinActions acts mixins) q.1 = some q.2.actions ∧
        aget (mergeMixinMutations muts mixins) q.1 = some q.2.mutations) ∧
    (∀ name, aget (buildActionStateMap (mergeMixinActions acts mixins)) name =
        Option.map Prod.fst (List.find? (fun p => hasKey p.2 name)
          (mergeMixinActions acts mixins).reverse)) ∧
    (∀ (merged r1 r2 r3 : AList (AList φ))
        (Mns Nns : String) (tM tN : AList φ) (name : String),
        merged = r1 ++ (Mns, tM) :: r2 ++ (Nns, tN) :: r3 →
        hasKey tM name = true → hasKey tN name = true →
        (∀ q ∈ r3, hasKey q.2 name = false) →
        aget (buildActionStateMap merged) name = some Nns) := by
  refine ⟨?_, ?_, ?_⟩
  · intro q hq
    have hndA : ((mixins.map (fun p => (p.1, p.2.actions))).map Prod.fst).Nodup := by
      rw [List.map_map]
      exact hnd
    have hndM : ((mixins.map (fun p => (p.1, p.2.mutations))).map Prod.fst).Nodup := by
      rw [List.map_map]
      exact hnd
    constructor
    · exact aget_assignAll_mem hndA
        (List.mem_map_of_mem (fun p => (p.1, p.2.actions)) hq)
    · exact aget_assignAll_mem hndM
        (List.mem_map_of_mem (fun p => (p.1, p.2.mutations)) hq)
  · intro name
    exact aget_buildActionStateMap _ name
  · intro merged r1 r2 r3 Mns Nns tM tN name hm hM hN hr3
    subst hm
    rw [aget_buildActionStateMap]
    have h3 : List.find? (fun p => hasKey p.2 name) r3.reverse = none := by
      rw [List.find?_eq_none]
      intro x hx
      simp [hr3 x (List.mem_reverse.mp hx)]
    have hrev : (r1 ++ (Mns, tM) :: r2 ++ (Nns, tN) :: r3).reverse =
        r3.reverse ++ (Nns, tN) :: (r2.reverse ++ (Mns, tM) :: r1.reverse) := by
      simp
    rw [hrev, List.find?_append, h3, Option.none_or, List.find?_cons]
    simp [hN]

/-- C9 witness: mixin `"mx"` contributes its tables at its namespace and its
action `"a"` wins in the reverse index over namespace `"own"`'s earlier `"a"`. -/
theorem C9_witness :
    aget (mergeMixinActions w9Base w9Mixins) "mx" = some [("a", 2)] ∧
    aget (mergeMixinMutations w9BaseMuts w9Mixins) "mx" = some [("ma", 3)] ∧
    aget (buildActionStateMap (mergeMixinActions w9Base w9Mixins)) "a" = some "mx" := by
  have h := C9_mixin_composition w9Base w9BaseMuts w9Mixins (by simp [w9Mixins])
  have h1 := h.1 ("mx", MixinDef.mk (fun _ => JSVal.null) [("a", 2)] [("ma", 3)])
    (List.mem_cons_self _ _)
  refine ⟨h1.1, h1.2, ?_⟩
  exact h.2.2 (mergeMixinActions w9Base w9Mixins) [] [] []
    "own" "mx" [("a", 1)] [("a", 2)] "a" rfl rfl rfl
    (by intro q hq; simp at hq)

theorem keys_topFns_sublist (desc : AList (DescVal φ)) :
    ((topFns desc).map Prod.fst).Sublist (desc.map Prod.fst) := by
  induction desc with
  | nil => simp [topFns]
  | cons p rest ih =>
    rcases p with ⟨n, v⟩
    cases v with
    | fn f =>
      simpa [topFns, List.filterMap_cons] using ih.cons₂ n
    | table t =>
      simpa [topFns, List.filterMap_cons] using ih.cons n

theorem mem_topFns_of_aget_fn {desc : AList (DescVal φ)} {n : String} {f : φ}
    (h : aget desc n = some (DescVal.fn f)) : (n, f) ∈ topFns desc := by
  have hm := mem_of_aget_some h
  exact List.mem_filterMap.mpr ⟨(n, DescVal.fn f), hm, rfl⟩

theorem aget_removeTopFns_table {desc : AList (DescVal φ)} {k : String}
    {t : AList φ} (h : aget desc k = some (DescVal.table t)) :
    aget (removeTopFns desc) k = some (DescVal.table t) := by
  induction desc with
  | nil => simp [aget] at h
  | cons p rest ih =>
    rcases p with ⟨n, v⟩
    by_cases hn : n = k
    · simp only [aget, if_pos hn] at h
      have hv : v = DescVal.table t := Option.some.inj h
      subst hv
      subst hn
      simp [removeTopFns, List.filter_cons, aget]
    · simp only [aget, if_neg hn] at h
      cases v with
      | fn g =>
        simpa [removeTopFns, List.filter_cons] using ih h
      | table t2 =>
        simpa [removeTopFns, List.filter_cons, aget, hn] using ih h

theorem aget_removeTopFns_fn {desc : AList (DescVal φ)} {k : String} {f : φ}
    (hnd : (desc.map Prod.fst).Nodup)
    (h : aget desc k = some (DescVal.fn f)) :
    aget (removeTopFns desc) k = none := by
  induction desc with
  | nil => simp [aget] at h
  | cons p rest ih =>
    rcases p with ⟨n, v⟩
    rw [List.map_cons, List.nodup_cons] at hnd
    by_cases hn : n = k
    · simp only [aget, if_pos hn] at h
      have hv : v = DescVal.fn f := Option.some.inj h
      subst hv
      have hkf : hasKey (removeTopFns rest) k = false := by
        apply hasKey_eq_false_of_not_mem_keys
        intro hmem
        exact hnd.1
          (by rw [hn]; exact ((List.filter_sublist rest).map Prod.fst).subset hmem)
      simpa [removeTopFns, List.filter_cons]
        using aget_eq_none_of_hasKey_false hkf
    · simp only [aget, if_neg hn] at h
      cases v with
      | fn g =>
        simpa [removeTopFns, List.filter_cons] using ih hnd.2 h
      | table t2 =>
        simpa [removeTopFns, List.filter_cons, aget, hn] using ih hnd.2 h

theorem aget_replaceAt (l : AList (DescVal φ)) (mn : String) (w : DescVal φ)
    (k : String) :
    aget (l.map (fun p => if p.1 = mn then (p.1, w) else p)) k =
      (if k = mn then Option.map (fun _ => w) (aget l k) else aget l k) := by
  induction l with
  | nil => by_cases hk : k = mn <;> simp [aget, hk]
  | cons p rest ih =>
    rcases p with ⟨n, v⟩
    by_cases hn : n = mn <;> by_cases hk : k = n
    · simp [aget, hn, hk]
    · have hmn : ¬ (mn = k) := fun h => hk (h.symm.trans hn.symm)
      have hkm : ¬ (k = mn) := fun h => hmn h.symm
      simp [aget, hn, hkm, hmn, ih]
    · have hkm : ¬ (k = mn) := by rw [hk]; exact hn
      simp [aget, hk, hn, hkm]
    · have hnk : ¬ (n = k) := fun h => hk (Eq.symm h)
      simp [aget, hn, hnk, ih]

theorem regDefaultDesc_spec (desc : AList (DescVal φ)) (mn : String)
    (d : AList (DescVal φ)) (base : AList φ)
    (hd : (if hasKey desc mn = true then desc
           else desc ++ [(mn, DescVal.table [])]) = d)
    (hbase : aget d mn = some (DescVal.table base)) :
    regDefaultDesc desc mn =
      (removeTopFns d).map (fun p =>
        if p.1 = mn then (p.1, DescVal.table (assignAll base (topFns d))) else p) := by
  simp only [regDefaultDesc, hd, hbase]

theorem regDefaultDesc_core (desc d : AList (DescVal φ)) (mn : String)
    (base : AList φ)
    (heq : regDefaultDesc desc mn =
      (removeTopFns d).map (fun p =>
        if p.1 = mn then (p.1, DescVal.table (assignAll base (topFns d))) else p))
    (hnd : (d.map Prod.fst).Nodup)
    (hbase : aget d mn = some (DescVal.table base))
    (hfn : ∀ n f, aget desc n = some (DescVal.fn f) →
      aget d n = some (DescVal.fn f)) :
    (∃ tbl, aget (regDefaultDesc desc mn) mn = some (DescVal.table tbl) ∧
      ∀ n f, aget desc n = some (DescVal.fn f) → aget tbl n = some f) ∧
    (∀ n x, aget (regDefaultDesc desc mn) n = some x →
      ∃ t, x = DescVal.table t) ∧
    (∀ n f, aget desc n = some (DescVal.fn f) →
      aget (regDefaultDesc desc mn) n = none) := by
  rw [heq]
  refine ⟨⟨assignAll base (topFns d), ?_, ?_⟩, ?_, ?_⟩
  · rw [aget_replaceAt, if_pos rfl, aget_removeTopFns_table hbase]
    rfl
  · intro n f h
    exact aget_assignAll_mem
      (List.Nodup.sublist (keys_topFns_sublist d) hnd)
      (mem_topFns_of_aget_fn (hfn n f h))
  · intro n x h
    rw [aget_replaceAt] at h
    by_cases hn : n = mn
    · rw [if_pos hn] at h
      cases hg : aget (removeTopFns d) n with
      | none => rw [hg] at h; simp at h
      | some y =>
        rw [hg] at h
        have h2 : x = DescVal.table (assignAll base (topFns d)) := by
          simpa using h.symm
        exact ⟨assignAll base (topFns d), h2⟩
    · rw [if_neg hn] at h
      rcases List.mem_filter.mp (mem_of_aget_some h) with ⟨hmem, hp⟩
      cases x with
      | fn g => simp at hp
      | table t => exact ⟨t, rfl⟩
  · intro n f h
    have hdn := hfn n f h
    have hne : n ≠ mn := by
      intro he
      rw [he, hbase] at hdn
      simp at hdn
    rw [aget_replaceAt, if_neg hne]
    exact aget_removeTopFns_fn hnd hdn

/-- C10 counterexample: the claim fails, as stated, when a top-level entry
keyed exactly by the model name holds a function.  On the desc
`[(m, fn 1), (f, fn 2)]` with model name `"m"`, the source binds `defaults`
to the truthy function at `desc[modelName]`, moves the function entries onto
that detached object, and `delete`s the keys, so the resulting desc is empty:
there is no namespace table keyed `"m"` at all, and the top-level function
`f` was not moved into any such namespace. -/
theorem C10_counterexample :
    aget (regDefaultDesc
      [("m", DescVal.fn (1 : Nat)), ("f", DescVal.fn 2)] "m") "m" = none ∧
    ¬ ∃ tbl : AList Nat,
      aget (regDefaultDesc
        [("m", DescVal.fn (1 : Nat)), ("f", DescVal.fn 2)] "m") "m"
        = some (DescVal.table tbl) := by
  refine ⟨rfl, ?_⟩
  rintro ⟨tbl, h⟩
  rw [(rfl : aget (regDefaultDesc
    [("m", DescVal.fn (1 : Nat)), ("f", DescVal.fn 2)] "m") "m" = none)] at h
  cases h

/-- C10 (amended): at model construction, provided the schema's table does
not already bind the model name key to a top-level function (the entry is
absent or a namespace table), every top-level entry whose value is a function
is moved by `regDefaultDesc` into the namespace table keyed by the model
name, the original top-level function entries are deleted (only namespace
tables remain), and the schema's own state factory is wrapped so its result
is nested under the model name key.  When the model name key itself holds a
function the code instead attaches the moved functions to that detached
function object and deletes the key, leaving no model name namespace (see
the counterexample above). -/
theorem C10_default_namespace (desc : AList (DescVal φ)) (mn : String)
    (f0 : Unit → JSVal)
    (hnd : (desc.map Prod.fst).Nodup)
    (hM : aget desc mn = none ∨ ∃ t, aget desc mn = some (DescVal.table t)) :
    (∃ tbl, aget (regDefaultDesc desc mn) mn = some (DescVal.table tbl) ∧
      ∀ n f, aget desc n = some (DescVal.fn f) → aget tbl n = some f) ∧
    (∀ n x, aget (regDefaultDesc desc mn) n = some x →
      ∃ t, x = DescVal.table t) ∧
    (∀ n f, aget desc n = some (DescVal.fn f) →
      aget (regDefaultDesc desc mn) n = none) ∧
    wrapModelState mn f0 () = [(mn, f0 ())] := by
  have hwrap : wrapModelState mn f0 () = [(mn, f0 ())] := rfl
  rcases hM with hM | ⟨t0, hM⟩
  · have hk : hasKey desc mn = false := hasKey_false_of_aget_none hM
    have hdnd : ((desc ++ [(mn, DescVal.table [])]).map Prod.fst).Nodup := by
      rw [List.map_append, List.nodup_append]
      refine ⟨hnd, List.nodup_singleton mn, ?_⟩
      intro a ha hb
      simp only [List.map_cons, List.map_nil, List.mem_singleton] at hb
      subst hb
      exact not_mem_keys_of_hasKey_false hk ha
    have hbase : aget (desc ++ [(mn, DescVal.table [])]) mn
        = some (DescVal.table []) := by
      rw [aget_append_right hM]
      simp [aget]
    have heq := regDefaultDesc_spec desc mn (desc ++ [(mn, DescVal.table [])]) []
      (by rw [if_neg (by simp [hk])]) hbase
    have hcore := regDefaultDesc_core desc (desc ++ [(mn, DescVal.table [])]) mn []
      heq hdnd hbase (fun n f h => aget_append_left h)
    exact ⟨hcore.1, hcore.2.1, hcore.2.2, hwrap⟩
  · have hk : hasKey desc mn = true := hasKey_eq_true_of_aget_some hM
    have heq := regDefaultDesc_spec desc mn desc t0 (by rw [if_pos hk]) hM
    have hcore := regDefaultDesc_core desc desc mn t0 heq hnd hM (fun n f h => h)
    exact ⟨hcore.1, hcore.2.1, hcore.2.2, hwrap⟩

/-- C10 witness: desc `{f1: fn, M: {old}, f2: fn}` with model name `"M"`
collapses to the single namespace `"M"` holding `old`, `f1` and `f2`. -/
theorem C10_witness :
    (∃ tbl, aget (regDefaultDesc w10Desc "M") "M" = some (DescVal.table tbl) ∧
      ∀ n f, aget w10Desc n = some (DescVal.fn f) → aget tbl n = some f) ∧
    (∀ n x, aget (regDefaultDesc w10Desc "M") n = some x →
      ∃ t, x = DescVal.table t) ∧
    (∀ n f, aget w10Desc n = some (DescVal.fn f) →
      aget (regDefaultDesc w10Desc "M") n = none) ∧
    wrapModelState "M" (fun _ => JSVal.num 3) () = [("M", JSVal.num 3)] :=
  C10_default_namespace w10Desc "M" (fun _ => JSVal.num 3) (by decide)
    (Or.inr ⟨[("old", 5)], rfl⟩)

/-! ## Dispatch-engine lemmas and claims -/

/-- C8: for an action execution context, calling `context.dispatch` with a
mutation name absent from the namespace's mutation table invokes nothing and
returns `undefined`; with a present name it invokes that mutation with the
namespace state prepended to the arguments and returns the mutation's result. -/
theorem C8_mutation_dispatcher (mutations : AList Mutation) (st : JSVal)
    (name : String) (args : List JSVal) :
    (aget mutations name = none →
      (makeActionContext mutations st).dispatchFn name args = ([], JSVal.undef)) ∧
    (∀ f, aget mutations name = some f →
      (makeActionContext mutations st).dispatchFn name args =
        ([MutInvocation.mk name (st :: args)], f (st :: args))) := by
  constructor
  · intro h
    simp [makeActionContext, h]
  · intro f h
    simp [makeActionContext, h]

/-- C8 witness: `inc` present and `dec` absent on a concrete mutation table. -/
theorem C8_witness :
    (makeActionContext wMuts (JSVal.num 1)).dispatchFn "dec" [] = ([], JSVal.undef) ∧
    (makeActionContext wMuts (JSVal.num 1)).dispatchFn "inc" [JSVal.num 2] =
      ([MutInvocation.mk "inc" [JSVal.num 1, JSVal.num 2]], JSVal.num 7) := by
  constructor
  · exact (C8_mutation_dispatcher wMuts (JSVal.num 1) "dec" []).1 rfl
  · exact (C8_mutation_dispatcher wMuts (JSVal.num 1) "inc" [JSVal.num 2]).2
      (fun _ => JSVal.num 7) rfl

/-- C4: the before-dispatch broadcast is defective.  With a handler registered
(`c4Model.handlers = [0]`), dispatching the known action `"a"` raises
`ReferenceError` from the unbound `handler` identifier inside the `forEach`
callback: the registered handler is never invoked with
`(namespace, actionName, args)` (no `handlerInvoked` event exists on any
path of `fireBeforeDispatch`) and the action itself is never reached. -/
theorem C4_beforeDispatch_defect :
    (dispatch c4Model "a" []).2 = Except.error JSErr.referenceError ∧
    (dispatch c4Model "a" []).1.filter isHandlerEv = [] ∧
    (dispatch c4Model "a" []).1.filter isActionEv = [] := ⟨rfl, rfl, rfl⟩

/-- C3: dispatching an action name absent from the `actionStateMap` reverse
index fails with an error surfaced to the caller — never a silent normal
return — for any model without a namespace literally keyed `"undefined"`. -/
theorem C3_unknown_action_errors (m : DModel) (action : String)
    (bizArgs : List JSVal)
    (h1 : aget (modelActionStateMap m) action = none)
    (h2 : aget m.actions "undefined" = none) :
    ∃ e, (dispatch m action bizArgs).2 = Except.error e := by
  cases hh : m.handlers with
  | nil =>
    exact ⟨JSErr.typeError,
      by simp [dispatch, applyAction, fireBeforeDispatch, h1, h2, hh, jsKey]⟩
  | cons a rest =>
    exact ⟨JSErr.referenceError,
      by simp [dispatch, applyAction, fireBeforeDispatch, h1, h2, hh, jsKey]⟩

/-- C3 witness: unknown action `"zz"` on a concrete model errors. -/
theorem C3_witness : ∃ e, (dispatch w1Model "zz" []).2 = Except.error e :=
  C3_unknown_action_errors w1Model "zz" [] rfl rfl

/-- C2: for a known action whose action function returns a thenable,
`dispatch` returns a deferred result that settles with the action (same
delay) and resolves to the `getState(namespace)` snapshot of the action's own
namespace taken before the action was invoked. -/
theorem C2_dispatch_thenable (m : DModel) (action ns : String)
    (tbl : AList ActionFn) (f : ActionFn) (bizArgs : List JSVal)
    (d : Nat) (v : JSVal)
    (hH : m.handlers = [])
    (h1 : aget (modelActionStateMap m) action = some ns)
    (h2 : aget m.actions ns = some tbl)
    (h3 : aget tbl action = some f)
    (hres : f (dispatchContext m ns) bizArgs = ARes.thenable d v) :
    (dispatch m action bizArgs).2 =
      Except.ok (some (d, getState m (GetStateArg.strArg ns))) := by
  simp only [dispatchContext] at hres
  simp [dispatch, applyAction, fireBeforeDispatch, hH, h1, h2, h3, jsKey, hres]

/-- C2 witness: the thenable action `"a1"` resolves after its own 3 ticks to
the `"m"`-namespace snapshot. -/
theorem C2_witness :
    (dispatch w1Model "a1" []).2 =
      Except.ok (some (3, getState w1Model (GetStateArg.strArg "m"))) :=
  C2_dispatch_thenable w1Model "a1" "m" [("a1", w1Act1), ("a2", w1Act2)] w1Act1
    [] 3 JSVal.null rfl rfl rfl rfl rfl

theorem runCaller_ok (m : DModel) (snap : AList JSVal) (c : Caller)
    (hH : m.handlers = [])
    (hc : ∃ ns tbl f, c.stateKey = some ns ∧ aget m.actions ns = some tbl ∧
        aget tbl c.action = some f) :
    runCaller m snap c =
      ([Ev.actionInvoked (jsKey c.stateKey) c.action
          (callerCtx m snap c).state c.args],
       Except.ok (callerResultOpt m snap c)) := by
  rcases hc with ⟨ns, tbl, f, hsk, htbl, hact⟩
  simp [runCaller, applyAction, fireBeforeDispatch, hH, hsk, jsKey, htbl, hact,
    callerResultOpt, callerCtx]

theorem runCallers_ok (m : DModel) (snap : AList JSVal)
    (callers : List Caller)
    (hH : m.handlers = [])
    (hc : ∀ c ∈ callers, ∃ ns tbl f, c.stateKey = some ns ∧
        aget m.actions ns = some tbl ∧ aget tbl c.action = some f) :
    runCallers m snap callers =
      (callers.map (fun c => Ev.actionInvoked (jsKey c.stateKey) c.action
          (callerCtx m snap c).state c.args),
       Except.ok (callers.map (callerResultOpt m snap))) := by
  induction callers with
  | nil => rfl
  | cons c rest ih =>
    have hcc := hc c (List.mem_cons_self c rest)
    have hrest := ih (fun x hx => hc x (List.mem_cons_of_mem c hx))
    simp [runCallers, runCaller_ok m snap c hH hcc, hrest]

theorem le_maxDelay_foldl (l : List (Option (Nat × JSVal))) (acc : Nat) :
    acc ≤ l.foldl (fun a r => Nat.max a (settleDelay r)) acc ∧
    ∀ x ∈ l, settleDelay x ≤ l.foldl (fun a r => Nat.max a (settleDelay r)) acc := by
  induction l generalizing acc with
  | nil => exact ⟨Nat.le_refl acc, by simp⟩
  | cons y rest ih =>
    have h1 := ih (Nat.max acc (settleDelay y))
    refine ⟨le_trans (Nat.le_max_left _ _) h1.1, ?_⟩
    intro x hx
    rcases List.mem_cons.mp hx with h | h
    · subst h
      exact le_trans (Nat.le_max_right _ _) h1.1
    · exact h1.2 x h

theorem settleDelay_le_maxDelay {l : List (Option (Nat × JSVal))}
    {x : Option (Nat × JSVal)} (h : x ∈ l) : settleDelay x ≤ maxDelay l :=
  (le_maxDelay_foldl l 0).2 x h

theorem filter_isGetStateEv_map_eq_nil (l : List Caller) (g : Caller → Ev)
    (hg : ∀ c, isGetStateEv (g c) = false) :
    (l.map g).filter isGetStateEv = [] := by
  induction l with
  | nil => rfl
  | cons c rest ih => simp [List.filter_cons, hg, ih]

/-- C1: for every `dispatchAll` run whose recorded actions are all known, on a
model with no before-dispatch handlers registered, the batch protocol holds:
the collector phase only records (executes nothing), exactly one snapshot is
taken via `getState` over the union of the namespaces of the recorded actions,
every recorded action is executed with a context scoped to its namespace's
slice of that single shared snapshot (same-namespace actions receive the same
sub-state), and the result resolves to the shared snapshot no earlier than
every action's result has settled. -/
theorem C1_dispatchAll_protocol (m : DModel)
    (collector : List (String × List JSVal))
    (hH : m.handlers = [])
    (hK : ∀ p ∈ collector, ∃ ns tbl f,
        aget (modelActionStateMap m) p.1 = some ns ∧
        aget m.actions ns = some tbl ∧ aget tbl p.1 = some f) :
    batchProtocolHolds m collector := by
  have hcallers : ∀ c ∈ recordCallers m collector, ∃ ns tbl f,
      c.stateKey = some ns ∧ aget m.actions ns = some tbl ∧
      aget tbl c.action = some f := by
    intro c hcmem
    rcases List.mem_map.mp hcmem with ⟨p, hp, hpc⟩
    rcases hK p hp with ⟨ns, tbl, f, hns, htbl, hf⟩
    subst hpc
    exact ⟨ns, tbl, f, hns, htbl, hf⟩
  have hrun := runCallers_ok m (batchSnapshot m collector)
    (recordCallers m collector) hH hcallers
  have hda : dispatchAll m collector =
      ((recordCallers m collector).map
          (fun c => Ev.recorded c.stateKey c.action c.args) ++
        Ev.getStateCalled (GetStateArg.listArg (batchNamespaces m collector)) ::
        (recordCallers m collector).map
          (fun c => Ev.actionInvoked (jsKey c.stateKey) c.action
            (callerCtx m (batchSnapshot m collector) c).state c.args),
       Except.ok
         (maxDelay ((recordCallers m collector).map
            (callerResultOpt m (batchSnapshot m collector))),
          batchSnapshot m collector)) := by
    simp only [batchSnapshot] at hrun
    simp only [dispatchAll, hrun]
    rfl
  refine ⟨maxDelay ((recordCallers m collector).map
      (callerResultOpt m (batchSnapshot m collector))),
    ?_, ?_, ?_, ?_, ?_, ?_⟩
  · rw [hda]
    rfl
  · rw [hda]
    simp only [List.filter_append, List.filter_cons,
      filter_isGetStateEv_map_eq_nil (recordCallers m collector)
        (fun c => Ev.recorded c.stateKey c.action c.args) (fun c => rfl),
      filter_isGetStateEv_map_eq_nil (recordCallers m collector)
        (fun c => Ev.actionInvoked (jsKey c.stateKey) c.action
          (callerCtx m (batchSnapshot m collector) c).state c.args)
        (fun c => rfl)]
    simp [isGetStateEv]
  · intro s
    constructor
    · intro hs
      simp only [batchNamespaces, recordSubStates] at hs
      rcases List.mem_map.mp hs with ⟨o, ho, heq⟩
      have ho2 : o ∈ (recordCallers m collector).map Caller.stateKey :=
        mem_dedupKeep.mp ho
      rcases List.mem_map.mp ho2 with ⟨c, hcmem, hco⟩
      rcases List.mem_map.mp hcmem with ⟨p, hp, hpc⟩
      rcases hK p hp with ⟨ns, tbl, f, hns, htbl, hf⟩
      refine ⟨p, hp, ?_⟩
      rw [hns]
      have : c.stateKey = some ns := by
        rw [← hpc]
        exact hns
      rw [this] at hco
      rw [← hco] at heq
      rw [← heq]
      rfl
    · rintro ⟨p, hp, hps⟩
      simp only [batchNamespaces, recordSubStates]
      have hcmem : Caller.mk (aget (modelActionStateMap m) p.1) p.1 p.2 ∈
          recordCallers m collector :=
        List.mem_map_of_mem _ hp
      have h1 : some s ∈ (recordCallers m collector).map Caller.stateKey := by
        have := List.mem_map_of_mem Caller.stateKey hcmem
        simpa [hps] using this
      have h2 : some s ∈ dedupKeep
          ((recordCallers m collector).map Caller.stateKey) :=
        mem_dedupKeep.mpr h1
      have := List.mem_map_of_mem jsKey h2
      simpa [jsKey] using this
  · intro c1 h1 c2 h2 he
    simp [callerCtx, he]
  · rw [hda]
  · intro c hc d v hres
    rw [runCaller_ok m (batchSnapshot m collector) c hH (hcallers c hc)] at hres
    have hx : callerResultOpt m (batchSnapshot m collector) c = some (d, v) :=
      Except.ok.inj hres
    have hmem : callerResultOpt m (batchSnapshot m collector) c ∈
        (recordCallers m collector).map
          (callerResultOpt m (batchSnapshot m collector)) :=
      List.mem_map_of_mem _ hc
    have hle := settleDelay_le_maxDelay hmem
    rw [hx] at hle
    exact hle

/-- C1 witness: a batch of the thenable `"a1"` and the synchronous `"a2"`,
both in namespace `"m"`, on the concrete model. -/
theorem C1_witness : batchProtocolHolds w1Model [("a1", []), ("a2", [])] := by
  apply C1_dispatchAll_protocol w1Model [("a1", []), ("a2", [])] rfl
  intro p hp
  rcases List.mem_cons.mp hp with h | h
  · subst h
    exact ⟨"m", [("a1", w1Act1), ("a2", w1Act2)], w1Act1, rfl, rfl, rfl⟩
  · rcases List.mem_cons.mp h with h2 | h2
    · subst h2
      exact ⟨"m", [("a1", w1Act1), ("a2", w1Act2)], w1Act2, rfl, rfl, rfl⟩
    · simp at h2

end VueModello
